import Mathlib

/-!
Verification development for the crossword-construction CSP solver
(`Project 3/crossword/generate.py`, class `CrosswordCreator`).

The solver's own code (`generate.py`) is embedded faithfully below.  The
`Crossword` class (file `crossword.py`) is not part of the sources; its data
model (variables, overlaps, neighbors) is modelled from the specification's
data-model section (slots, the symmetric overlap index with in-range
character offsets, neighbors = slots that overlap).

Python-semantics notes reflected in this embedding:
* `dict.copy()` is a shallow copy: the per-variable word *sets* are shared
  between the copy and the original, so in-place `set.remove` mutations are
  visible through both dictionaries.  `CrosswordCreator.consistent` rebinds
  the assigned variables' entries to fresh one-element lists and mutates all
  other entries in place; its final `self.domains = old_domains` therefore
  restores the assigned variables' domains but keeps the in-place pruning of
  every unassigned variable.  The embedding of `consistent` computes exactly
  this final store.
* In `backtrack`, `new_assignment = assignment` aliases the caller's dict,
  so tentative extensions mutate the caller's assignment; the embedding
  threads the assignment state through and returns its final value.
* In `backtrack`, `old_domains = self.domains.copy()` is again shallow and
  all domain mutations reachable from there are in-place `remove`s on the
  shared sets (the rebinding done inside `consistent` is undone before it
  returns), so the `self.domains = old_domains` restore has no observable
  effect; the embedding threads the mutated store forward.
* Python string indexing `w[i]` raises `IndexError` out of range (the spec
  treats out-of-range queries as contract violations); the embedding
  totalizes it with a default character.
-/

namespace CW

/-- Words are strings, modelled as lists of characters. -/
abbrev Word := List Char

/-- Python `w[i]` (in-contract accesses are always in range; see header). -/
def charAt (w : Word) (i : Nat) : Char := w.getD i ' '

/-- Modelled from the spec: a slot (`Variable` in `crossword.py`, absent from
the sources): identity is (row, column, direction, length); direction is
ACROSS or DOWN, here `down : Bool`. -/
structure Variable where
  row : Nat
  col : Nat
  down : Bool
  len : Nat
deriving DecidableEq

/-- Modelled from the spec: the immutable puzzle (`Crossword` in
`crossword.py`, absent from the sources): the set of slots and the overlap
index.  The spec makes the overlap index symmetric, never relates a slot to
itself, and records 0-based offsets into each slot's word, hence within each
slot's length. -/
structure Puzzle where
  vars : List Variable
  nodup : vars.Nodup
  overlaps : Variable → Variable → Option (Nat × Nat)
  overlaps_self : ∀ v, overlaps v v = none
  overlaps_symm : ∀ x y i j, overlaps x y = some (i, j) → overlaps y x = some (j, i)
  overlaps_lt : ∀ x y i j, overlaps x y = some (i, j) → i < x.len ∧ j < y.len

/-- The domain store `self.domains`: candidate words per slot.  The Python
dict is keyed by the puzzle's variables; the model extends it to a total
function (every access in the modelled pipeline is at a puzzle variable or
at an assignment key holding a forced singleton). -/
abbrev Store := Variable → List Word

/-- Pointwise store update (`self.domains[x] = l`). -/
def updStore (D : Store) (x : Variable) (l : List Word) : Store :=
  fun v => if v = x then l else D v

/-- An assignment: the Python dict from variables to words, as an
insertion-ordered association list with (invariantly) distinct keys. -/
abbrev Assignment := List (Variable × Word)

/-- Python `var in assignment`. -/
def hasKey (a : Assignment) (v : Variable) : Bool :=
  a.any (fun p => p.1 == v)

/-- Python `assignment[var]` (as an `Option`). -/
def lookupA (a : Assignment) (v : Variable) : Option Word :=
  (a.find? (fun p => p.1 == v)).map (fun p => p.2)

/-- Python `assignment[var] = word`: update in place (keeping the key's
position) if present, else append (dict insertion order). -/
def setA (a : Assignment) (v : Variable) (w : Word) : Assignment :=
  if hasKey a v then a.map (fun p => if p.1 == v then (v, w) else p)
  else a ++ [(v, w)]

/-- Modelled from the spec: `Crossword.neighbors(v)` (absent from the
sources) returns the slots that overlap `v`; a slot never overlaps itself. -/
def neighbors (P : Puzzle) (v : Variable) : List Variable :=
  P.vars.filter (fun z => (P.overlaps z v).isSome)

/-- `self.domains = {var: self.crossword.words.copy() for var in variables}`:
every slot's domain starts as a (per-slot independent) copy of the word
list. -/
def initialDomains (words : List Word) : Store := fun _ => words

/-- The Python pattern `for w in s.copy(): if p w: s.remove(w)`: iterate a
snapshot `c` of the collection, erasing matching elements from the current
collection `cur`. -/
def eraseLoop (p : Word → Bool) (c cur : List Word) : List Word :=
  c.foldl (fun cur w => if p w then cur.erase w else cur) cur

/-- `enforce_node_consistency`: for every variable, remove from its domain
(iterating a copy) every word whose length differs from the variable's
length. -/
def enforce_node_consistency (P : Puzzle) (D : Store) : Store :=
  P.vars.foldl
    (fun D var =>
      updStore D var (eraseLoop (fun w => w.length != var.len) (D var) (D var)))
    D

/-- `revise(x, y)`: iterate a copy of `domain(x)`; a word with no compatible
word in `domain(y)` at the overlap offsets is removed and the `revised` flag
set.  Only `domain(x)` is mutated, and `x ≠ y` whenever they overlap, so the
`domain(y)` read in the loop condition is the unchanged `D y`. -/
def revise (P : Puzzle) (x y : Variable) (D : Store) : Bool × Store :=
  match P.overlaps x y with
  | none => (false, D)
  | some (xo, yo) =>
    let r := (D x).foldl
      (fun (acc : Bool × List Word) xw =>
        if ((D y).filter (fun yw => charAt xw xo == charAt yw yo)).length == 0 then
          (true, acc.2.erase xw)
        else acc)
      (false, D x)
    (r.1, updStore D x r.2)

/-! Loop lemmas: the erase-while-iterating-a-copy pattern computes a filter.
These are needed before `ac3go`, whose termination argument rests on the
fact that a revision strictly shrinks the revised domain. -/

theorem eraseLoop_nil (p : Word → Bool) (cur : List Word) :
    eraseLoop p [] cur = cur := rfl

theorem eraseLoop_cons_step (p : Word → Bool) (x : Word) (t cur : List Word) :
    eraseLoop p (x :: t) cur = eraseLoop p t (if p x then cur.erase x else cur) := rfl

theorem eraseLoop_cons (p : Word → Bool) :
    ∀ (c : List Word) (a : Word) (cur : List Word), p a = false →
      eraseLoop p c (a :: cur) = a :: eraseLoop p c cur := by
  intro c
  induction c with
  | nil => intro a cur _; rfl
  | cons x t ih =>
    intro a cur ha
    rw [eraseLoop_cons_step, eraseLoop_cons_step]
    by_cases hx : p x = true
    · rw [if_pos hx, if_pos hx]
      have hxa : ¬(a == x) = true := by
        intro hax
        rw [eq_of_beq hax, hx] at ha
        cases ha
      rw [List.erase_cons_tail hxa]
      exact ih a (cur.erase x) ha
    · rw [if_neg hx, if_neg hx]
      exact ih a cur ha

theorem eraseLoop_self (p : Word → Bool) :
    ∀ l : List Word, eraseLoop p l l = l.filter (fun w => !p w) := by
  intro l
  induction l with
  | nil => rfl
  | cons a t ih =>
    rw [eraseLoop_cons_step, List.filter_cons]
    by_cases ha : p a = true
    · rw [if_pos ha, List.erase_cons_head, if_neg (by simp [ha]), ih]
    · have ha' : p a = false := by simpa using ha
      rw [if_neg ha, if_pos (by simp [ha']), eraseLoop_cons p t a t ha', ih]

theorem pairFold (q : Word → Bool) :
    ∀ (c : List Word) (b : Bool) (cur : List Word),
      c.foldl (fun acc xw => if q xw then (true, acc.2.erase xw) else acc) (b, cur)
        = (b || c.any q, eraseLoop q c cur) := by
  intro c
  induction c with
  | nil => intro b cur; simp [eraseLoop]
  | cons x t ih =>
    intro b cur
    rw [List.foldl_cons, eraseLoop_cons_step]
    by_cases hx : q x = true
    · rw [if_pos hx, if_pos hx, ih true (cur.erase x)]
      simp [hx]
    · rw [if_neg hx, if_neg hx, ih b cur]
      have hx' : q x = false := by simpa using hx
      simp [hx']

theorem revise_none (P : Puzzle) (x y : Variable) (D : Store)
    (h : P.overlaps x y = none) : revise P x y D = (false, D) := by
  unfold revise
  rw [h]

/-- The loop body of `revise` computes: new `domain(x)` = the words of the
old `domain(x)` that have a compatible partner in `domain(y)`; the `revised`
flag = some word had none. -/
theorem revise_eq (P : Puzzle) (x y : Variable) (D : Store) (i j : Nat)
    (h : P.overlaps x y = some (i, j)) :
    revise P x y D =
      ((D x).any (fun w => ((D y).filter (fun yw => charAt w i == charAt yw j)).length == 0),
       updStore D x ((D x).filter
         (fun w => !(((D y).filter (fun yw => charAt w i == charAt yw j)).length == 0)))) := by
  have hstep : revise P x y D =
      (((D x).foldl
          (fun (acc : Bool × List Word) xw =>
            if ((D y).filter (fun yw => charAt xw i == charAt yw j)).length == 0 then
              (true, acc.2.erase xw)
            else acc) (false, D x)).1,
       updStore D x (((D x).foldl
          (fun (acc : Bool × List Word) xw =>
            if ((D y).filter (fun yw => charAt xw i == charAt yw j)).length == 0 then
              (true, acc.2.erase xw)
            else acc) (false, D x)).2)) := by
    unfold revise
    rw [h]
  rw [hstep,
    pairFold (fun w => ((D y).filter (fun yw => charAt w i == charAt yw j)).length == 0)
      (D x) false (D x),
    eraseLoop_self]
  simp

theorem revise_not_revised (P : Puzzle) (x y : Variable) (D : Store)
    (h : (revise P x y D).1 = false) : (revise P x y D).2 = D := by
  rcases ho : P.overlaps x y with _ | ⟨i, j⟩
  · rw [revise_none P x y D ho]
  · rw [revise_eq P x y D i j ho] at h ⊢
    simp only [List.any_eq_false] at h
    have hall : ∀ w ∈ D x,
        (!(((D y).filter (fun yw => charAt w i == charAt yw j)).length == 0)) = true := by
      intro w hw
      simp [h w hw]
    simp only
    rw [List.filter_eq_self.mpr hall]
    funext v
    unfold updStore
    by_cases hv : v = x
    · rw [if_pos hv, hv]
    · rw [if_neg hv]

theorem revise_other (P : Puzzle) (x y : Variable) (D : Store) (v : Variable)
    (h : v ≠ x) : (revise P x y D).2 v = D v := by
  rcases ho : P.overlaps x y with _ | ⟨i, j⟩
  · rw [revise_none P x y D ho]
  · rw [revise_eq P x y D i j ho]
    simp [updStore, h]

/-- A filter that drops at least one element is strictly shorter. -/
theorem filter_length_lt {l : List Word} {p : Word → Bool} {w : Word}
    (hw : w ∈ l) (hp : p w = false) : (l.filter p).length < l.length := by
  rcases Nat.lt_or_ge (l.filter p).length l.length with h | h
  · exact h
  · exfalso
    have heq : l.filter p = l :=
      (List.filter_sublist l).eq_of_length (Nat.le_antisymm (List.length_filter_le _ _) h)
    have := List.filter_eq_self.mp heq w hw
    rw [hp] at this
    cases this

theorem revise_lt (P : Puzzle) (x y : Variable) (D : Store)
    (h : (revise P x y D).1 = true) : ((revise P x y D).2 x).length < (D x).length := by
  rcases ho : P.overlaps x y with _ | ⟨i, j⟩
  · rw [revise_none P x y D ho] at h; cases h
  · rw [revise_eq P x y D i j ho] at h ⊢
    simp only [List.any_eq_true] at h
    obtain ⟨w, hw, hcond⟩ := h
    simp only [updStore, if_pos rfl]
    exact filter_length_lt hw (by simp [hcond])

/-- The re-enqueue loop of `ac3`: after a revision of `domain(x)`, push the
arc `(z, x)` for every neighbor `z` of `x`. -/
def requeue (P : Puzzle) (x : Variable) : List (Variable × Variable) :=
  (neighbors P x).map (fun z => (z, x))

/-- The initial-queue loop of `ac3` when called without arcs: all ordered
pairs (variable, neighbor). -/
def seedArcs (P : Puzzle) : List (Variable × Variable) :=
  P.vars.foldl (fun acc var => acc ++ (neighbors P var).map (fun nb => (var, nb))) []

/-- Total number of candidate words over the puzzle's variables (termination
measure for AC-3). -/
def totalSize (P : Puzzle) (D : Store) : Nat :=
  (P.vars.map (fun v => (D v).length)).sum

/-- Number of queued arcs whose first component is not a puzzle variable
(termination measure bookkeeping; the Python would raise a `KeyError` on
such an arc, the model processes it without affecting any variable's
domain). -/
def junk (P : Puzzle) (q : List (Variable × Variable)) : Nat :=
  (q.filter (fun p => !(decide (p.1 ∈ P.vars)))).length

theorem requeue_first_mem (P : Puzzle) (x : Variable) :
    ∀ p ∈ requeue P x, p.1 ∈ P.vars := by
  intro p hp
  simp only [requeue, List.mem_map] at hp
  obtain ⟨z, hz, rfl⟩ := hp
  exact List.mem_of_mem_filter hz

theorem junk_append_requeue (P : Puzzle) (rest : List (Variable × Variable))
    (x : Variable) : junk P (rest ++ requeue P x) = junk P rest := by
  unfold junk
  rw [List.filter_append, List.length_append]
  have hnil : (requeue P x).filter (fun p => !(decide (p.1 ∈ P.vars))) = [] := by
    rw [List.filter_eq_nil_iff]
    intro p hp
    simp [requeue_first_mem P x p hp]
  rw [hnil]
  simp

theorem junk_cons_mem (P : Puzzle) (x y : Variable) (rest : List (Variable × Variable))
    (hx : x ∈ P.vars) : junk P ((x, y) :: rest) = junk P rest := by
  unfold junk
  rw [List.filter_cons]
  simp [hx]

theorem junk_cons_not_mem (P : Puzzle) (x y : Variable) (rest : List (Variable × Variable))
    (hx : x ∉ P.vars) : junk P ((x, y) :: rest) = junk P rest + 1 := by
  unfold junk
  rw [List.filter_cons]
  simp [hx]

theorem totalSize_congr (P : Puzzle) (D₁ D₂ : Store)
    (h : ∀ v ∈ P.vars, D₁ v = D₂ v) : totalSize P D₁ = totalSize P D₂ := by
  unfold totalSize
  congr 1
  exact List.map_congr_left (fun v hv => by rw [h v hv])

theorem totalSize_lt (P : Puzzle) (D₁ D₂ : Store) (x : Variable) (hx : x ∈ P.vars)
    (hlt : (D₂ x).length < (D₁ x).length)
    (hother : ∀ v, v ≠ x → D₂ v = D₁ v) : totalSize P D₂ < totalSize P D₁ := by
  unfold totalSize
  refine List.sum_lt_sum (fun v => (D₂ v).length) (fun v => (D₁ v).length)
    (fun v _ => ?_) ⟨x, hx, hlt⟩
  show (D₂ v).length ≤ (D₁ v).length
  by_cases hv : v = x
  · rw [hv]; exact Nat.le_of_lt hlt
  · rw [hother v hv]

/-- The `while` loop of `ac3`: pop the front arc `(x, y)`; revise; on a
revision either fail (empty `domain(x)`) or re-enqueue `(z, x)` for every
neighbor `z` of `x`. -/
def ac3go (P : Puzzle) : List (Variable × Variable) → Store → Bool × Store
  | [], D => (true, D)
  | (x, y) :: rest, D =>
    if (revise P x y D).1 then
      if ((revise P x y D).2 x).length == 0 then (false, (revise P x y D).2)
      else ac3go P (rest ++ requeue P x) ((revise P x y D).2)
    else ac3go P rest ((revise P x y D).2)
termination_by q D => (totalSize P D + junk P q, q.length)
decreasing_by
  · rename_i hrev _
    by_cases hx : x ∈ P.vars
    · refine Prod.Lex.left _ _ ?_
      have h1 : totalSize P ((revise P x y D).2) < totalSize P D :=
        totalSize_lt P D _ x hx (revise_lt P x y D hrev) (fun v hv => revise_other P x y D v hv)
      rw [junk_append_requeue, junk_cons_mem P x y rest hx]
      omega
    · refine Prod.Lex.left _ _ ?_
      have h2 : totalSize P ((revise P x y D).2) = totalSize P D :=
        totalSize_congr P _ D (fun v hv => revise_other P x y D v (fun hvx => hx (hvx ▸ hv)))
      rw [junk_append_requeue, junk_cons_not_mem P x y rest hx, h2]
      omega
  · rename_i hrev
    have hD : (revise P x y D).2 = D :=
      revise_not_revised P x y D (by simpa using hrev)
    rw [hD]
    by_cases hx : x ∈ P.vars
    · rw [junk_cons_mem P x y rest hx]
      exact Prod.Lex.right _ (Nat.lt_succ_self _)
    · rw [junk_cons_not_mem P x y rest hx]
      exact Prod.Lex.left _ _ (by omega)

theorem ac3go_nil (P : Puzzle) (D : Store) : ac3go P [] D = (true, D) := by
  rw [ac3go]

theorem ac3go_cons (P : Puzzle) (x y : Variable) (rest : List (Variable × Variable))
    (D : Store) :
    ac3go P ((x, y) :: rest) D =
      if (revise P x y D).1 then
        if ((revise P x y D).2 x).length == 0 then (false, (revise P x y D).2)
        else ac3go P (rest ++ requeue P x) ((revise P x y D).2)
      else ac3go P rest ((revise P x y D).2) := by
  rw [ac3go]

/-- The initial arc queue of `ac3`: all (variable, neighbor) pairs when no
queue is supplied, else the given queue. -/
def initialQueue (P : Puzzle) (arcs : Option (List (Variable × Variable))) :
    List (Variable × Variable) :=
  match arcs with
  | none => seedArcs P
  | some l => l

/-- `ac3(arcs=None)`. -/
def ac3 (P : Puzzle) (arcs : Option (List (Variable × Variable))) (D : Store) :
    Bool × Store :=
  ac3go P (initialQueue P arcs) D

/-- `assignment_complete`: `len(assignment) == len(self.crossword.variables)`. -/
def assignment_complete (P : Puzzle) (a : Assignment) : Bool :=
  a.length == P.vars.length

/-- `assignment_has_duplicates`: some assigned word occurs more than once
among the assignment's values. -/
def assignment_has_duplicates (a : Assignment) : Bool :=
  a.any (fun p => 1 < (a.map (fun q => q.2)).count p.2)

/-- `has_empty_domains`: some variable's domain is empty.  The Python
iterates the keys of the domains dict; inside `consistent` those keys are
the puzzle's variables plus any assignment keys outside them, but the latter
were just set to one-element lists that nothing empties, so scanning the
puzzle's variables is equivalent. -/
def has_empty_domains (P : Puzzle) (D : Store) : Bool :=
  P.vars.any (fun v => (D v).length == 0)

/-- The forcing loop of `consistent`:
`for var in assignment: self.domains[var] = [assignment[var]]`. -/
def forceAssigned (a : Assignment) (D : Store) : Store :=
  a.foldl (fun T p => updStore T p.1 [p.2]) D

/-- The final store after `consistent`'s `self.domains = old_domains`.
`old_domains = self.domains.copy()` shares each variable's word set with
`self.domains`; the forcing loop rebinds the assigned variables' entries to
fresh one-element lists, after which node/arc consistency mutates every
entry in place.  Restoring the dict therefore brings back the assigned
variables' untouched original sets while keeping the in-place pruning of
every other variable. -/
def restoreShallow (a : Assignment) (D T : Store) : Store :=
  fun v => if hasKey a v then D v else T v

/-- `consistent(assignment)`: fail on duplicate words; force each assigned
variable's domain to the singleton of its word; run node consistency, the
empty-domain check, and full `ac3`; finally restore the shallow domain
snapshot (see `restoreShallow`). -/
def consistent (P : Puzzle) (a : Assignment) (D : Store) : Bool × Store :=
  if assignment_has_duplicates a then (false, D)
  else
    let T1 := enforce_node_consistency P (forceAssigned a D)
    if has_empty_domains P T1 then (false, restoreShallow a D T1)
    else ((ac3 P none T1).1, restoreShallow a D (ac3 P none T1).2)

/-- `order_domain_values(var, assignment)`: pair every word of
`domain(var)` with the number of conflicting words it would rule out across
the unassigned neighbors, then sort ascending by that count (Python's
`sorted` is a stable sort) and return the words.  Every neighbor overlaps
`var`, so the overlap lookup the Python destructures is never `None`. -/
def order_domain_values (P : Puzzle) (var : Variable) (a : Assignment) (D : Store) :
    List Word :=
  let nonAssignedNeighbors := (neighbors P var).filter (fun nb => !(hasKey a nb))
  let pairs := (D var).map (fun w =>
    (w, nonAssignedNeighbors.foldl
      (fun acc nb =>
        match P.overlaps var nb with
        | some (o1, o2) =>
          acc + ((D nb).filter (fun nw => !(charAt w o1 == charAt nw o2))).length
        | none => acc)
      0))
  (pairs.mergeSort (fun p q => decide (p.2 ≤ q.2))).map (fun p => p.1)

/-- Modelled from the spec (refinement reference for C8): "for each
candidate word, sum over each unassigned neighbor the count of that
neighbor's current domain words that conflict with the candidate at the
shared overlap position". -/
def eliminatedCount (P : Puzzle) (var : Variable) (a : Assignment) (D : Store)
    (w : Word) : Nat :=
  (((neighbors P var).filter (fun nb => !(hasKey a nb))).map
    (fun nb =>
      match P.overlaps var nb with
      | some (o1, o2) =>
        ((D nb).filter (fun nw => !(charAt w o1 == charAt nw o2))).length
      | none => 0)).sum

/-- One iteration of the first loop of `select_unassigned_variable`: seed
the running minimum, or reset / extend / skip the list of minimal-domain
variables. -/
def mrvStep (D : Store) (acc : Option Nat × List Variable) (v : Variable) :
    Option Nat × List Variable :=
  match acc.1 with
  | none => (some (D v).length, acc.2 ++ [v])
  | some s =>
    if (D v).length < s then (some (D v).length, [v])
    else if (D v).length == s then (acc.1, acc.2 ++ [v])
    else acc

/-- First loop of `select_unassigned_variable`: collect the variables of
minimal current domain size, tracking the running minimum. -/
def mrvPass (D : Store) (l : List Variable) : Option Nat × List Variable :=
  l.foldl (mrvStep D) (none, [])

/-- One iteration of the second loop: keep the variable of strictly larger
degree, the incumbent on ties. -/
def degreeStep (P : Puzzle) (best : Option Variable) (v : Variable) :
    Option Variable :=
  match best with
  | none => some v
  | some b =>
    if (neighbors P b).length < (neighbors P v).length then some v else best

/-- Second loop of `select_unassigned_variable`: among the tied variables
keep the first one of maximal neighbor count (strictly-greater replaces). -/
def degreePass (P : Puzzle) (l : List Variable) : Option Variable :=
  l.foldl (degreeStep P) none

/-- `select_unassigned_variable(assignment)`: `None` on a complete
assignment; otherwise minimum-remaining-values over the unassigned
variables, ties broken by highest degree (`None` cannot occur for
in-contract calls, where some variable is unassigned; Python would raise
further down). -/
def select_unassigned_variable (P : Puzzle) (a : Assignment) (D : Store) :
    Option Variable :=
  if assignment_complete P a then none
  else
    let unassigned := P.vars.filter (fun v => !(hasKey a v))
    let sd := (mrvPass D unassigned).2
    if sd.length == 1 then sd.head? else degreePass P sd

/-- The `for word in self.order_domain_values(...)` loop of `backtrack`,
with the recursive call abstracted as `rec`.  `new_assignment = assignment`
aliases the caller's dict, so the extension `setA` and all mutations done by
the recursive call are threaded onward; `old_domains = self.domains.copy()`
is a shallow snapshot whose restore has no observable effect (see header),
so the possibly-pruned store of a failed branch is threaded onward too. -/
def btLoop (P : Puzzle) (var : Variable)
    (rec : Assignment → Store → Option Assignment × Assignment × Store) :
    List Word → Assignment → Store → Option Assignment × Assignment × Store
  | [], a, D => (none, a, D)
  | w :: ws, a, D =>
    if (consistent P (setA a var w) D).1 then
      match rec (setA a var w)
          (ac3 P none
            (enforce_node_consistency P (consistent P (setA a var w) D).2)).2 with
      | (some r, a2, D2) => (some r, a2, D2)
      | (none, a2, D2) => btLoop P var rec ws a2 D2
    else btLoop P var rec ws (setA a var w) (consistent P (setA a var w) D).2

/-- `backtrack(assignment)`, with explicit fuel bounding the recursion
depth (each recursive call's assignment has strictly more keys, all drawn
from the puzzle's variables, so depth is bounded by their number; `solve`
passes enough fuel).  Returns (result, final assignment state, final domain
store state). -/
def backtrack (P : Puzzle) : Nat → Assignment → Store →
    Option Assignment × Assignment × Store
  | 0, a, D => (none, a, D)
  | Nat.succ fuel, a, D =>
    if assignment_complete P a then (some a, a, D)
    else
      match select_unassigned_variable P a D with
      | none => (none, a, D)
      | some var =>
        btLoop P var (fun a2 D2 => backtrack P fuel a2 D2)
          (order_domain_values P var a D) a D

/-- `solve()`: initialize the domains, enforce node consistency, run `ac3`
(its boolean result is ignored), and backtrack from the empty assignment. -/
def solve (P : Puzzle) (words : List Word) : Option Assignment :=
  (backtrack P (P.vars.length + 1) []
    (ac3 P none (enforce_node_consistency P (initialDomains words))).2).1

/-! Pointwise characterization of `enforce_node_consistency`. -/

theorem enc_foldl :
    ∀ (l : List Variable) (D : Store) (v : Variable),
      (l.foldl
        (fun D var =>
          updStore D var (eraseLoop (fun w => w.length != var.len) (D var) (D var)))
        D) v
        = if v ∈ l then (D v).filter (fun w => w.length == v.len) else D v := by
  have hkeep : ∀ u : Variable, (fun w : Word => !(w.length != u.len))
      = (fun w : Word => w.length == u.len) := by
    intro u; funext w; simp [bne]
  intro l
  induction l with
  | nil => intro D v; simp
  | cons x t ih =>
    intro D v
    rw [List.foldl_cons, ih]
    rw [eraseLoop_self, hkeep x]
    by_cases hvt : v ∈ t
    · rw [if_pos hvt, if_pos (List.mem_cons_of_mem x hvt)]
      unfold updStore
      by_cases hvx : v = x
      · rw [if_pos hvx, hvx, List.filter_filter]
        exact List.filter_congr (fun w _ => by simp)
      · rw [if_neg hvx]
    · rw [if_neg hvt]
      unfold updStore
      by_cases hvx : v = x
      · rw [if_pos hvx, if_pos (by rw [hvx]; exact List.mem_cons_self x t), hvx]
      · rw [if_neg hvx, if_neg (by simp [hvx, hvt])]

theorem enc_apply (P : Puzzle) (D : Store) (v : Variable) :
    enforce_node_consistency P D v
      = if v ∈ P.vars then (D v).filter (fun w => w.length == v.len) else D v :=
  enc_foldl P.vars D v

/-- C7: after `enforce_node_consistency`, a word is in a slot's domain
exactly when it was there before and its length equals the slot's length:
every remaining word fits, and no fitting word was removed. -/
theorem C7_node_consistency (P : Puzzle) (D : Store) (v : Variable)
    (hv : v ∈ P.vars) (w : Word) :
    w ∈ enforce_node_consistency P D v ↔ (w ∈ D v ∧ w.length = v.len) := by
  rw [enc_apply, if_pos hv, List.mem_filter]
  simp

/-! Declarative characterization of `revise`. -/

theorem any_filter_length (l : List Word) (p : Word → Bool) :
    (!((l.filter p).length == 0)) = l.any p := by
  rcases hf : l.filter p with _ | ⟨a, t⟩
  · have hall : ∀ w ∈ l, ¬p w = true := List.filter_eq_nil_iff.mp hf
    rw [List.any_eq_false.mpr hall]
    rfl
  · have ha : a ∈ l.filter p := by rw [hf]; exact List.mem_cons_self a t
    have hmem := List.mem_filter.mp ha
    rw [List.any_eq_true.mpr ⟨a, hmem.1, hmem.2⟩]
    rfl

theorem revise_snd_filter (P : Puzzle) (x y : Variable) (D : Store) (i j : Nat)
    (h : P.overlaps x y = some (i, j)) :
    (revise P x y D).2 x
      = (D x).filter (fun w => (D y).any (fun yw => charAt w i == charAt yw j)) := by
  rw [revise_eq P x y D i j h]
  simp only [updStore, if_pos rfl]
  exact List.filter_congr (fun w _ => any_filter_length _ _)

theorem revise_fst_iff (P : Puzzle) (x y : Variable) (D : Store) (i j : Nat)
    (h : P.overlaps x y = some (i, j)) :
    ((revise P x y D).1 = true ↔
      ∃ w ∈ D x, ∀ yw ∈ D y, charAt w i ≠ charAt yw j) := by
  rw [revise_eq P x y D i j h]
  simp only [List.any_eq_true]
  constructor
  · rintro ⟨w, hw, hc⟩
    refine ⟨w, hw, fun yw hyw heq => ?_⟩
    have hnil : (D y).filter (fun yw => charAt w i == charAt yw j) = [] := by
      cases hfe : (D y).filter (fun yw => charAt w i == charAt yw j) with
      | nil => rfl
      | cons b bs => rw [hfe] at hc; cases hc
    have := List.filter_eq_nil_iff.mp hnil yw hyw
    exact this (by simp [heq])
  · rintro ⟨w, hw, hc⟩
    refine ⟨w, hw, ?_⟩
    have hnil : (D y).filter (fun yw => charAt w i == charAt yw j) = [] :=
      List.filter_eq_nil_iff.mpr (fun yw hyw => by simp [hc yw hyw])
    rw [hnil]
    rfl

/-- C6: if `x` and `y` do not overlap, `revise(x, y)` changes nothing and
returns false; otherwise it keeps in `domain(x)` exactly the words with an
agreeing word in `domain(y)` at the overlap offsets, and returns true iff
some word of `domain(x)` (one with no agreeing partner) was removed. -/
theorem C6_revise_spec (P : Puzzle) (x y : Variable) (D : Store) :
    (P.overlaps x y = none → revise P x y D = (false, D)) ∧
    (∀ i j, P.overlaps x y = some (i, j) →
      ((revise P x y D).2 x
          = (D x).filter (fun w => (D y).any (fun yw => charAt w i == charAt yw j)) ∧
        ((revise P x y D).1 = true ↔
          ∃ w ∈ D x, ∀ yw ∈ D y, charAt w i ≠ charAt yw j))) :=
  ⟨fun h => revise_none P x y D h,
   fun i j h => ⟨revise_snd_filter P x y D i j h, revise_fst_iff P x y D i j h⟩⟩

/-- C10: `revise(x, y)` leaves every domain other than `domain(x)`
untouched, and its only effect on `domain(x)` is dropping words (the result
is a sublist of the original domain). -/
theorem C10_revise_frame (P : Puzzle) (x y : Variable) (D : Store) :
    (∀ v, v ≠ x → (revise P x y D).2 v = D v)
      ∧ List.Sublist ((revise P x y D).2 x) (D x) := by
  refine ⟨revise_other P x y D, ?_⟩
  rcases ho : P.overlaps x y with _ | ⟨i, j⟩
  · rw [revise_none P x y D ho]
  · rw [revise_snd_filter P x y D i j ho]
    exact List.filter_sublist _

/-! Global lemmas about the AC-3 loop. -/

theorem seed_aux_sub (P : Puzzle) :
    ∀ (l : List Variable) (acc : List (Variable × Variable)) (p : Variable × Variable),
      p ∈ acc →
      p ∈ l.foldl (fun acc var => acc ++ (neighbors P var).map (fun nb => (var, nb))) acc := by
  intro l
  induction l with
  | nil => intro acc p hp; exact hp
  | cons x t ih =>
    intro acc p hp
    rw [List.foldl_cons]
    exact ih _ p (List.mem_append_left _ hp)

theorem seed_aux_first (P : Puzzle) :
    ∀ (l : List Variable) (acc : List (Variable × Variable)),
      (∀ p ∈ acc, p.1 ∈ P.vars) →
      (∀ v ∈ l, v ∈ P.vars) →
      ∀ p ∈ l.foldl (fun acc var => acc ++ (neighbors P var).map (fun nb => (var, nb))) acc,
        p.1 ∈ P.vars := by
  intro l
  induction l with
  | nil => intro acc hacc _ p hp; exact hacc p hp
  | cons x t ih =>
    intro acc hacc hl p hp
    rw [List.foldl_cons] at hp
    refine ih _ ?_ (fun v hv => hl v (List.mem_cons_of_mem x hv)) p hp
    intro q hq
    rcases List.mem_append.mp hq with h | h
    · exact hacc q h
    · obtain ⟨nb, _, rfl⟩ := List.mem_map.mp h
      exact hl x (List.mem_cons_self x t)

theorem seedArcs_first (P : Puzzle) : ∀ p ∈ seedArcs P, p.1 ∈ P.vars :=
  seed_aux_first P P.vars [] (fun p hp => absurd hp (List.not_mem_nil p))
    (fun _ hv => hv)

theorem seed_aux_second (P : Puzzle) :
    ∀ (l : List Variable) (acc : List (Variable × Variable)),
      (∀ p ∈ acc, p.2 ∈ P.vars) →
      ∀ p ∈ l.foldl (fun acc var => acc ++ (neighbors P var).map (fun nb => (var, nb))) acc,
        p.2 ∈ P.vars := by
  intro l
  induction l with
  | nil => intro acc hacc p hp; exact hacc p hp
  | cons x t ih =>
    intro acc hacc p hp
    rw [List.foldl_cons] at hp
    refine ih _ ?_ p hp
    intro q hq
    rcases List.mem_append.mp hq with h | h
    · exact hacc q h
    · obtain ⟨nb, hnb, rfl⟩ := List.mem_map.mp h
      exact List.mem_of_mem_filter hnb

theorem seedArcs_second (P : Puzzle) : ∀ p ∈ seedArcs P, p.2 ∈ P.vars :=
  seed_aux_second P P.vars [] (fun p hp => absurd hp (List.not_mem_nil p))

theorem seed_aux_mem (P : Puzzle) (x y : Variable) :
    ∀ (l : List Variable) (acc : List (Variable × Variable)),
      x ∈ l → y ∈ neighbors P x →
      (x, y) ∈ l.foldl (fun acc var => acc ++ (neighbors P var).map (fun nb => (var, nb))) acc := by
  intro l
  induction l with
  | nil => intro acc hxl _; exact absurd hxl (List.not_mem_nil x)
  | cons v t ih =>
    intro acc hxl hyn
    rw [List.foldl_cons]
    rcases List.mem_cons.mp hxl with rfl | hxt
    · exact seed_aux_sub P t _ _
        (List.mem_append_right _ (List.mem_map.mpr ⟨y, hyn, rfl⟩))
    · exact ih _ hxt hyn

theorem seedArcs_mem (P : Puzzle) (x y : Variable) (hx : x ∈ P.vars)
    (hymem : y ∈ P.vars) (hy : (P.overlaps y x).isSome) : (x, y) ∈ seedArcs P := by
  have hyn : y ∈ neighbors P x := by
    unfold neighbors
    rw [List.mem_filter]
    exact ⟨hymem, by simpa using hy⟩
  exact seed_aux_mem P x y P.vars [] hx hyn

/-- `ac3go` never returns true having emptied a domain: every domain that
was nonempty on entry is nonempty in the returned store. -/
theorem ac3go_true_nonempty (P : Puzzle) :
    ∀ (q : List (Variable × Variable)) (D : Store),
      ∀ D', ac3go P q D = (true, D') → ∀ v, D v ≠ [] → D' v ≠ [] := by
  intro q D
  induction q, D using ac3go.induct P with
  | case1 D =>
    intro D' h v hv
    rw [ac3go_nil] at h
    cases h
    exact hv
  | case2 x y rest D hrev hempty =>
    intro D' h v hv
    rw [ac3go_cons, if_pos hrev, if_pos hempty] at h
    cases h
  | case3 x y rest D hrev hempty ih =>
    intro D' h v hv
    rw [ac3go_cons, if_pos hrev, if_neg hempty] at h
    refine ih D' h v ?_
    by_cases hvx : v = x
    · rw [hvx]
      intro hnil
      rw [hnil] at hempty
      exact hempty rfl
    · rw [revise_other P x y D v hvx]
      exact hv
  | case4 x y rest D hrev ih =>
    intro D' h v hv
    rw [ac3go_cons, if_neg hrev] at h
    refine ih D' h v ?_
    rw [revise_not_revised P x y D (by simpa using hrev)]
    exact hv

/-- When `ac3go` returns false, the variable whose revision emptied its
domain witnesses an empty domain in the returned store. -/
theorem ac3go_false_empty (P : Puzzle) :
    ∀ (q : List (Variable × Variable)) (D : Store),
      (∀ p ∈ q, p.1 ∈ P.vars) →
      ∀ D', ac3go P q D = (false, D') → ∃ v ∈ P.vars, D' v = [] := by
  intro q D
  induction q, D using ac3go.induct P with
  | case1 D =>
    intro _ D' h
    rw [ac3go_nil] at h
    cases h
  | case2 x y rest D hrev hempty =>
    intro hq D' h
    rw [ac3go_cons, if_pos hrev, if_pos hempty] at h
    cases h
    refine ⟨x, hq (x, y) (List.mem_cons_self _ _), ?_⟩
    have : ((revise P x y D).2 x).length = 0 := by
      have := of_decide_eq_true hempty
      simpa using hempty
    exact List.length_eq_zero.mp this
  | case3 x y rest D hrev hempty ih =>
    intro hq D' h
    rw [ac3go_cons, if_pos hrev, if_neg hempty] at h
    refine ih ?_ D' h
    intro p hp
    rcases List.mem_append.mp hp with hp | hp
    · exact hq p (List.mem_cons_of_mem _ hp)
    · exact requeue_first_mem P x p hp
  | case4 x y rest D hrev ih =>
    intro hq D' h
    rw [ac3go_cons, if_neg hrev] at h
    exact ih (fun p hp => hq p (List.mem_cons_of_mem _ hp)) D' h

/-- On a store where every variable's domain is a singleton, a
true-returning AC-3 run certifies that every queued arc's pair of words
agrees at its overlap offsets (a disagreeing arc would empty the revised
domain and fail). -/
theorem ac3go_singleton (P : Puzzle) (D : Store)
    (hD : ∀ v ∈ P.vars, ∃ w, D v = [w]) :
    ∀ (q : List (Variable × Variable)),
      (∀ p ∈ q, p.1 ∈ P.vars ∧ p.2 ∈ P.vars) →
      (ac3go P q D).1 = true →
      ∀ x y, (x, y) ∈ q → ∀ i j, P.overlaps x y = some (i, j) →
        ∀ wx wy, D x = [wx] → D y = [wy] → charAt wx i = charAt wy j := by
  intro q
  induction q with
  | nil =>
    intro _ _ x y hmem
    exact absurd hmem (List.not_mem_nil _)
  | cons hd rest ih =>
    obtain ⟨x0, y0⟩ := hd
    intro hq htrue x y hmem i j ho wx wy hx hy
    by_cases hrev : (revise P x0 y0 D).1 = true
    · exfalso
      rcases ho0 : P.overlaps x0 y0 with _ | ⟨i0, j0⟩
      · rw [revise_none P x0 y0 D ho0] at hrev
        cases hrev
      · obtain ⟨w0, hw0⟩ := hD x0 (hq (x0, y0) (List.mem_cons_self _ _)).1
        obtain ⟨u0, hu0⟩ := hD y0 (hq (x0, y0) (List.mem_cons_self _ _)).2
        obtain ⟨w, hwmem, hwnone⟩ := (revise_fst_iff P x0 y0 D i0 j0 ho0).mp hrev
        have hw : w = w0 := by
          rw [hw0] at hwmem
          simpa using hwmem
        have hfilter : (revise P x0 y0 D).2 x0 = [] := by
          rw [revise_snd_filter P x0 y0 D i0 j0 ho0, hw0]
          have hany : ((D y0).any fun yw => charAt w0 i0 == charAt yw j0) = false := by
            rw [List.any_eq_false]
            intro yw hyw
            have hne := hwnone yw hyw
            rw [hw] at hne
            simp [hne]
          simp [hany]
        have hempty : (((revise P x0 y0 D).2 x0).length == 0) = true := by
          rw [hfilter]
          rfl
        rw [ac3go_cons, if_pos hrev, if_pos hempty] at htrue
        cases htrue
    · have hD2 : (revise P x0 y0 D).2 = D :=
        revise_not_revised P x0 y0 D (by simpa using hrev)
      rw [ac3go_cons, if_neg hrev, hD2] at htrue
      rcases List.mem_cons.mp hmem with heq | hmem'
      · have hpx : x = x0 := congrArg Prod.fst heq
        have hpy : y = y0 := congrArg Prod.snd heq
        subst hpx
        subst hpy
        by_contra hne
        apply hrev
        rw [revise_fst_iff P x y D i j ho]
        refine ⟨wx, by rw [hx]; exact List.mem_cons_self _ _, ?_⟩
        intro yw hyw
        rw [hy] at hyw
        rcases List.mem_singleton.mp hyw with rfl
        exact hne
      · exact ih (fun p hp => hq p (List.mem_cons_of_mem _ hp)) htrue x y hmem' i j ho
          wx wy hx hy

/-- When every variable's domain is already empty, AC-3 revises nothing and
drains its queue, returning true with the store unchanged. -/
theorem ac3go_all_empty (P : Puzzle) (D : Store)
    (hD : ∀ v ∈ P.vars, D v = []) :
    ∀ (q : List (Variable × Variable)), (∀ p ∈ q, p.1 ∈ P.vars) →
      ac3go P q D = (true, D) := by
  intro q
  induction q with
  | nil => intro _; exact ac3go_nil P D
  | cons hd rest ih =>
    obtain ⟨x, y⟩ := hd
    intro hq
    have hrev : (revise P x y D).1 = false := by
      rcases ho : P.overlaps x y with _ | ⟨i, j⟩
      · rw [revise_none P x y D ho]
      · rw [revise_eq P x y D i j ho]
        simp only
        rw [hD x (hq (x, y) (List.mem_cons_self _ _))]
        rfl
    rw [ac3go_cons, if_neg (by simp [hrev]), revise_not_revised P x y D hrev]
    exact ih (fun p hp => hq p (List.mem_cons_of_mem _ hp))

/-- C5 (amended): `ac3` (over a queue of puzzle slots) returns false only
with some slot's domain empty in the resulting store; if it returns true,
every slot whose domain was nonempty before the call still has a nonempty
domain (a slot whose domain was already empty and is never revised can stay
empty while `ac3` returns true). -/
theorem C5_ac3_domains (P : Puzzle) (arcs : Option (List (Variable × Variable)))
    (D : Store) (hq : ∀ p ∈ initialQueue P arcs, p.1 ∈ P.vars) :
    ((ac3 P arcs D).1 = false → ∃ v ∈ P.vars, (ac3 P arcs D).2 v = []) ∧
    ((ac3 P arcs D).1 = true → ∀ v, D v ≠ [] → (ac3 P arcs D).2 v ≠ []) := by
  constructor
  · intro hf
    have h2 : ac3go P (initialQueue P arcs) D = (false, (ac3 P arcs D).2) := by
      rw [← hf]
      exact Prod.mk.eta.symm
    exact ac3go_false_empty P _ D hq _ h2
  · intro ht v hv
    have h2 : ac3go P (initialQueue P arcs) D = (true, (ac3 P arcs D).2) := by
      rw [← ht]
      exact Prod.mk.eta.symm
    exact ac3go_true_nonempty P _ D _ h2 v hv

/-- C4 (amended): when processing the arc `(x, y)` revises `domain(x)`
without emptying it, `ac3` continues with exactly the arcs `(z, x)` for
every neighbor `z` of `x` appended to the queue — including `(y, x)` when
`y` is a neighbor of `x`. -/
theorem C4_requeue_all (P : Puzzle) (x y : Variable)
    (rest : List (Variable × Variable)) (D : Store)
    (h1 : (revise P x y D).1 = true)
    (h2 : (((revise P x y D).2 x).length == 0) = false) :
    ac3go P ((x, y) :: rest) D
        = ac3go P (rest ++ requeue P x) ((revise P x y D).2) ∧
    ∀ z, (z, x) ∈ requeue P x ↔ z ∈ neighbors P x := by
  constructor
  · rw [ac3go_cons, if_pos h1, if_neg (by simp [h2])]
  · intro z
    unfold requeue
    rw [List.mem_map]
    constructor
    · rintro ⟨z', hz', heq⟩
      have hz : z' = z := congrArg Prod.fst heq
      exact hz ▸ hz'
    · intro hz
      exact ⟨z, hz, rfl⟩

/-! Concrete instances: a slotless puzzle `P0`, a single-slot puzzle `P1`,
and a crossing puzzle `P2` (an ACROSS slot `vA` and a DOWN slot `vD`, both
of length 3, sharing their first cell). -/

def vA : Variable := ⟨0, 0, false, 3⟩

def vD : Variable := ⟨0, 0, true, 3⟩

def P0 : Puzzle where
  vars := []
  nodup := List.nodup_nil
  overlaps := fun _ _ => none
  overlaps_self := fun _ => rfl
  overlaps_symm := fun _ _ _ _ h => by cases h
  overlaps_lt := fun _ _ _ _ h => by cases h

def P1 : Puzzle where
  vars := [vA]
  nodup := by decide
  overlaps := fun _ _ => none
  overlaps_self := fun _ => rfl
  overlaps_symm := fun _ _ _ _ h => by cases h
  overlaps_lt := fun _ _ _ _ h => by cases h

/-- The overlap index of the crossing puzzle: `vA` and `vD` share their
first cell, so the overlap offsets are (0, 0) both ways. -/
def ov2 (a b : Variable) : Option (Nat × Nat) :=
  if a = vA ∧ b = vD then some (0, 0)
  else if a = vD ∧ b = vA then some (0, 0)
  else none

def P2 : Puzzle where
  vars := [vA, vD]
  nodup := by decide
  overlaps := ov2
  overlaps_self := by
    intro v
    unfold ov2
    by_cases h1 : v = vA ∧ v = vD
    · exact absurd (h1.1.symm.trans h1.2) (by decide)
    · by_cases h2 : v = vD ∧ v = vA
      · exact absurd (h2.1.symm.trans h2.2) (by decide)
      · rw [if_neg h1, if_neg h2]
  overlaps_symm := by
    intro x y i j h
    unfold ov2 at h ⊢
    by_cases h1 : x = vA ∧ y = vD
    · obtain ⟨rfl, rfl⟩ := h1
      rw [if_pos ⟨rfl, rfl⟩] at h
      simp only [Option.some.injEq, Prod.mk.injEq] at h
      obtain ⟨rfl, rfl⟩ := h
      decide
    · by_cases h2 : x = vD ∧ y = vA
      · obtain ⟨rfl, rfl⟩ := h2
        rw [if_neg h1, if_pos ⟨rfl, rfl⟩] at h
        simp only [Option.some.injEq, Prod.mk.injEq] at h
        obtain ⟨rfl, rfl⟩ := h
        decide
      · rw [if_neg h1, if_neg h2] at h
        cases h
  overlaps_lt := by
    intro x y i j h
    unfold ov2 at h
    by_cases h1 : x = vA ∧ y = vD
    · obtain ⟨rfl, rfl⟩ := h1
      rw [if_pos ⟨rfl, rfl⟩] at h
      simp only [Option.some.injEq, Prod.mk.injEq] at h
      obtain ⟨rfl, rfl⟩ := h
      exact ⟨by decide, by decide⟩
    · by_cases h2 : x = vD ∧ y = vA
      · obtain ⟨rfl, rfl⟩ := h2
        rw [if_neg h1, if_pos ⟨rfl, rfl⟩] at h
        simp only [Option.some.injEq, Prod.mk.injEq] at h
        obtain ⟨rfl, rfl⟩ := h
        exact ⟨by decide, by decide⟩
      · rw [if_neg h1, if_neg h2] at h
        cases h

def wCAT : Word := "cat".toList

def wDOG : Word := "dog".toList

def wAB : Word := "ab".toList

/-- All-empty store (for the C5 counterexample). -/
def D5 : Store := fun _ => []

/-- Store for the C4 instance: `domain(vA) = [cat, dog]`, `domain(vD) =
[cat]`, so revising `vA` against `vD` drops `dog` and keeps `cat`. -/
def D4 : Store := fun v => if v = vD then [wCAT] else [wCAT, wDOG]

/-- Store for the C5 witness: `domain(vA) = [cat]`, everything else empty,
so revising `vA` against `vD` empties `domain(vA)` and `ac3` fails. -/
def DE : Store := fun v => if v = vA then [wCAT] else []

/-- C5 counterexample: on a puzzle whose single slot has an empty domain
and produces no arcs, `ac3` returns true even though that slot's domain is
empty — refuting "if it returns true then every slot's domain is
nonempty". -/
theorem C5_counterexample :
    (ac3 P1 none D5).1 = true ∧ vA ∈ P1.vars ∧ (ac3 P1 none D5).2 vA = []
      ∧ D5 vA = [] := by
  have h : ac3 P1 none D5 = (true, D5) := by
    unfold ac3
    have hq : initialQueue P1 none = [] := rfl
    rw [hq, ac3go_nil]
  rw [h]
  exact ⟨rfl, by decide, rfl, rfl⟩

theorem C5_witness :
    ∃ v ∈ P2.vars, (ac3 P2 (some [(vA, vD)]) DE).2 v = [] := by
  refine (C5_ac3_domains P2 (some [(vA, vD)]) DE (by decide)).1 ?_
  show (ac3go P2 [(vA, vD)] DE).1 = false
  rw [ac3go_cons, if_pos (by decide), if_pos (by decide)]

/-- C4 counterexample: processing the arc `(vA, vD)` shrinks `domain(vA)`
without emptying it, yet the arc `(vD, vA)` IS among the re-enqueued arcs —
refuting "in particular (y, x) is not re-enqueued". -/
theorem C4_counterexample :
    (revise P2 vA vD D4).1 = true ∧ ((revise P2 vA vD D4).2 vA).length ≠ 0 ∧
    (vD, vA) ∈ requeue P2 vA :=
  ⟨by decide, by decide, by decide⟩

theorem C4_witness :
    ac3go P2 [(vA, vD)] D4
      = ac3go P2 ([] ++ requeue P2 vA) ((revise P2 vA vD D4).2) :=
  (C4_requeue_all P2 vA vD [] D4 (by decide) (by decide)).1

/-! Assignment lemmas. -/

/-- Well-formedness of an assignment state: keys are distinct and are
puzzle variables (true of every dict the Python builds from the empty
assignment, since keys are only ever added by `select_unassigned_variable`). -/
def AWF (P : Puzzle) (a : Assignment) : Prop :=
  (a.map (fun p => p.1)).Nodup ∧ ∀ p ∈ a, p.1 ∈ P.vars

theorem hasKey_iff (a : Assignment) (v : Variable) :
    hasKey a v = true ↔ ∃ w, (v, w) ∈ a := by
  unfold hasKey
  rw [List.any_eq_true]
  constructor
  · rintro ⟨p, hp, hpv⟩
    refine ⟨p.2, ?_⟩
    rw [beq_iff_eq] at hpv
    rw [← hpv]
    exact hp
  · rintro ⟨w, hw⟩
    exact ⟨(v, w), hw, by simp⟩

theorem hasKey_false (a : Assignment) (v : Variable) :
    hasKey a v = false ↔ ∀ p ∈ a, p.1 ≠ v := by
  unfold hasKey
  rw [List.any_eq_false]
  constructor
  · intro h p hp
    have := h p hp
    simpa using this
  · intro h p hp
    simpa using h p hp

theorem keys_setA (a : Assignment) (v : Variable) (w : Word) :
    (setA a v w).map (fun p => p.1)
      = if hasKey a v then a.map (fun p => p.1) else a.map (fun p => p.1) ++ [v] := by
  unfold setA
  by_cases h : hasKey a v = true
  · rw [if_pos h, if_pos h, List.map_map]
    refine List.map_congr_left ?_
    intro p _
    by_cases hp : (p.1 == v) = true
    · simp only [Function.comp_apply, if_pos hp]
      exact (beq_iff_eq.mp hp).symm
    · simp only [Function.comp_apply, if_neg hp]
  · rw [if_neg h, if_neg h, List.map_append]
    rfl

theorem setA_mem (a : Assignment) (v : Variable) (w : Word) :
    ∀ p ∈ setA a v w, p = (v, w) ∨ p ∈ a := by
  unfold setA
  intro p hp
  by_cases h : hasKey a v = true
  · rw [if_pos h] at hp
    obtain ⟨q, hq, hqe⟩ := List.mem_map.mp hp
    by_cases hq1 : (q.1 == v) = true
    · rw [if_pos hq1] at hqe
      exact Or.inl hqe.symm
    · rw [if_neg hq1] at hqe
      exact Or.inr (hqe ▸ hq)
  · rw [if_neg h] at hp
    rcases List.mem_append.mp hp with hp | hp
    · exact Or.inr hp
    · exact Or.inl (List.mem_singleton.mp hp)

theorem setA_AWF (P : Puzzle) (a : Assignment) (v : Variable) (w : Word)
    (ha : AWF P a) (hv : v ∈ P.vars) : AWF P (setA a v w) := by
  obtain ⟨hnd, hmem⟩ := ha
  constructor
  · rw [keys_setA]
    by_cases h : hasKey a v = true
    · rw [if_pos h]; exact hnd
    · rw [if_neg h]
      rw [List.nodup_append]
      refine ⟨hnd, List.nodup_singleton v, ?_⟩
      intro u hu hv'
      rcases List.mem_singleton.mp hv'
      obtain ⟨p, hp, rfl⟩ := List.mem_map.mp hu
      exact (hasKey_false a p.1).mp (by simpa using h) p hp rfl
  · intro p hp
    rcases setA_mem a v w p hp with rfl | hp'
    · exact hv
    · exact hmem p hp'

theorem setA_length (a : Assignment) (v : Variable) (w : Word) :
    (setA a v w).length = if hasKey a v then a.length else a.length + 1 := by
  unfold setA
  by_cases h : hasKey a v = true
  · rw [if_pos h, if_pos h, List.length_map]
  · rw [if_neg h, if_neg h, List.length_append]
    rfl

/-- In an assignment with distinct keys, a key determines its entry. -/
theorem keyUnique (a : Assignment) (hnd : (a.map (fun p => p.1)).Nodup)
    (v : Variable) (w w' : Word) (h1 : (v, w) ∈ a) (h2 : (v, w') ∈ a) : w = w' := by
  induction a with
  | nil => cases h1
  | cons p t ih =>
    rw [List.map_cons, List.nodup_cons] at hnd
    rcases List.mem_cons.mp h1 with he1 | ht1
    · rcases List.mem_cons.mp h2 with he2 | ht2
      · rw [← he1] at he2
        exact (congrArg Prod.snd he2).symm
      · exfalso
        exact hnd.1 (List.mem_map.mpr ⟨(v, w'), ht2, by rw [← he1]⟩)
    · rcases List.mem_cons.mp h2 with he2 | ht2
      · exfalso
        exact hnd.1 (List.mem_map.mpr ⟨(v, w), ht1, by rw [← he2]⟩)
      · exact ih hnd.2 ht1 ht2

theorem lookupA_some_of_mem (a : Assignment) (hnd : (a.map (fun p => p.1)).Nodup)
    (v : Variable) (w : Word) (h : (v, w) ∈ a) : lookupA a v = some w := by
  unfold lookupA
  rcases hfind : a.find? (fun p => p.1 == v) with _ | q
  · exfalso
    have hfa := List.find?_eq_none.mp hfind (v, w) h
    exact hfa (beq_self_eq_true v)
  · rw [hfind]
    have hq : q ∈ a := List.mem_of_find?_eq_some hfind
    have h0 := @List.find?_some (Variable × Word) (fun p => p.1 == v) q a hfind
    have hqv : q.1 = v := beq_iff_eq.mp h0
    have hqa : (v, q.2) ∈ a := by
      rw [← hqv]
      exact hq
    have hw := keyUnique a hnd v q.2 w hqa h
    exact congrArg some hw

theorem lookupA_mem (a : Assignment) (v : Variable) (w : Word)
    (h : lookupA a v = some w) : (v, w) ∈ a := by
  unfold lookupA at h
  rcases hfind : a.find? (fun p => p.1 == v) with _ | q
  · rw [hfind] at h; cases h
  · rw [hfind] at h
    have hq : q ∈ a := List.mem_of_find?_eq_some hfind
    have h0 := @List.find?_some (Variable × Word) (fun p => p.1 == v) q a hfind
    have hqv : q.1 = v := beq_iff_eq.mp h0
    have h2 : q.2 = w := Option.some.inj h
    rw [← h2, ← hqv]
    exact hq

/-- A complete well-formed assignment covers every puzzle variable. -/
theorem complete_covers (P : Puzzle) (a : Assignment) (ha : AWF P a)
    (hc : assignment_complete P a = true) :
    ∀ v ∈ P.vars, ∃ w, (v, w) ∈ a := by
  intro v hv
  obtain ⟨hnd, hmem⟩ := ha
  have hlen : a.length = P.vars.length := by
    unfold assignment_complete at hc
    simpa using hc
  by_contra hno
  push_neg at hno
  have hsub : (a.map (fun p => p.1)) ⊆ P.vars.erase v := by
    intro u hu
    obtain ⟨p, hp, rfl⟩ := List.mem_map.mp hu
    have hne : p.1 ≠ v := by
      intro he
      exact hno p.2 (by rw [← he]; exact hp)
    rw [List.mem_erase_of_ne hne]
    exact hmem p hp
  have hle : (a.map (fun p => p.1)).length ≤ (P.vars.erase v).length :=
    List.Subperm.length_le (List.subperm_of_subset hnd hsub)
  rw [List.length_map, hlen, List.length_erase_of_mem hv] at hle
  have hpos : 0 < P.vars.length := List.length_pos_of_mem hv
  omega

theorem nodup_of_count_le_one :
    ∀ l : List Word, (∀ w ∈ l, l.count w ≤ 1) → l.Nodup := by
  intro l
  induction l with
  | nil => intro _; exact List.nodup_nil
  | cons w t ih =>
    intro h
    rw [List.nodup_cons]
    constructor
    · intro hwt
      have := h w (List.mem_cons_self w t)
      rw [List.count_cons_self] at this
      have hz : t.count w = 0 := by omega
      exact absurd hwt (List.count_eq_zero.mp hz)
    · refine ih (fun u hu => ?_)
      have := h u (List.mem_cons_of_mem w hu)
      rw [List.count_cons] at this
      omega

theorem hasDup_false_nodup (a : Assignment)
    (h : assignment_has_duplicates a = false) : (a.map (fun p => p.2)).Nodup := by
  unfold assignment_has_duplicates at h
  rw [List.any_eq_false] at h
  refine nodup_of_count_le_one _ (fun w hw => ?_)
  obtain ⟨p, hp, rfl⟩ := List.mem_map.mp hw
  have := h p hp
  simpa using this

/-! `forceAssigned` lemmas. -/

theorem force_not_key (a : Assignment) :
    ∀ (D : Store) (v : Variable), hasKey a v = false → forceAssigned a D v = D v := by
  induction a with
  | nil => intro D v _; rfl
  | cons p t ih =>
    intro D v hk
    have hk' : hasKey t v = false := by
      rw [hasKey_false] at hk ⊢
      exact fun q hq => hk q (List.mem_cons_of_mem p hq)
    have hp1 : p.1 ≠ v := (hasKey_false (p :: t) v).mp hk p (List.mem_cons_self p t)
    show forceAssigned t (updStore D p.1 [p.2]) v = D v
    rw [ih _ v hk']
    unfold updStore
    rw [if_neg (fun he => hp1 he.symm)]

theorem force_mem (a : Assignment) :
    ∀ (D : Store) (v : Variable) (w : Word),
      (a.map (fun p => p.1)).Nodup → (v, w) ∈ a → forceAssigned a D v = [w] := by
  induction a with
  | nil => intro D v w _ h; cases h
  | cons p t ih =>
    intro D v w hnd hmem
    rw [List.map_cons, List.nodup_cons] at hnd
    rcases List.mem_cons.mp hmem with he | ht
    · have hkt : hasKey t v = false := by
        rw [hasKey_false]
        intro q hq he2
        refine hnd.1 (List.mem_map.mpr ⟨q, hq, ?_⟩)
        rw [he2]
        exact congrArg Prod.fst he
      show forceAssigned t (updStore D p.1 [p.2]) v = [w]
      rw [force_not_key t _ v hkt]
      unfold updStore
      rw [← he]
      simp
    · show forceAssigned t (updStore D p.1 [p.2]) v = [w]
      exact ih _ v w hnd.2 ht

/-! `consistent` and variable-selection lemmas. -/

theorem consistent_fst_true (P : Puzzle) (a : Assignment) (D : Store)
    (h : (consistent P a D).1 = true) :
    assignment_has_duplicates a = false ∧
    has_empty_domains P (enforce_node_consistency P (forceAssigned a D)) = false ∧
    (ac3 P none (enforce_node_consistency P (forceAssigned a D))).1 = true := by
  simp only [consistent] at h
  by_cases h1 : assignment_has_duplicates a = true
  · rw [if_pos h1] at h
    cases h
  · rw [if_neg h1] at h
    by_cases h2 : has_empty_domains P (enforce_node_consistency P (forceAssigned a D)) = true
    · rw [if_pos h2] at h
      cases h
    · rw [if_neg h2] at h
      exact ⟨by simpa using h1, by simpa using h2, h⟩

theorem has_empty_false (P : Puzzle) (D : Store)
    (h : has_empty_domains P D = false) : ∀ v ∈ P.vars, D v ≠ [] := by
  unfold has_empty_domains at h
  rw [List.any_eq_false] at h
  intro v hv hnil
  refine h v hv ?_
  rw [hnil]
  rfl

theorem mrvStep_sub (D : Store) (acc : Option Nat × List Variable) (v : Variable) :
    ∀ u ∈ (mrvStep D acc v).2, u ∈ acc.2 ∨ u = v := by
  intro u hu
  unfold mrvStep at hu
  split at hu
  · rcases List.mem_append.mp hu with h | h
    · exact Or.inl h
    · exact Or.inr (List.mem_singleton.mp h)
  · split at hu
    · exact Or.inr (List.mem_singleton.mp hu)
    · split at hu
      · rcases List.mem_append.mp hu with h | h
        · exact Or.inl h
        · exact Or.inr (List.mem_singleton.mp h)
      · exact Or.inl hu

theorem mrvStep_ne (D : Store) (acc : Option Nat × List Variable) (v : Variable)
    (h : acc.2 ≠ []) : (mrvStep D acc v).2 ≠ [] := by
  unfold mrvStep
  split
  · simp
  · split
    · simp
    · split
      · simp
      · exact h

theorem mrvFold_sub (D : Store) :
    ∀ (l : List Variable) (b : Option Nat × List Variable),
      ∀ u ∈ (l.foldl (mrvStep D) b).2, u ∈ b.2 ∨ u ∈ l := by
  intro l
  induction l with
  | nil => intro b u hu; exact Or.inl hu
  | cons x t ih =>
    intro b u hu
    rw [List.foldl_cons] at hu
    rcases ih (mrvStep D b x) u hu with h | h
    · rcases mrvStep_sub D b x u h with h2 | h2
      · exact Or.inl h2
      · exact Or.inr (h2 ▸ List.mem_cons_self x t)
    · exact Or.inr (List.mem_cons_of_mem x h)

theorem mrvFold_ne (D : Store) :
    ∀ (l : List Variable) (b : Option Nat × List Variable),
      b.2 ≠ [] → (l.foldl (mrvStep D) b).2 ≠ [] := by
  intro l
  induction l with
  | nil => intro b h; exact h
  | cons x t ih =>
    intro b h
    rw [List.foldl_cons]
    exact ih _ (mrvStep_ne D b x h)

theorem degreeStep_isSome (P : Puzzle) (b : Option Variable) (v : Variable) :
    (degreeStep P b v).isSome := by
  unfold degreeStep
  split
  · rfl
  · split
    · rfl
    · rename_i b0 _
      rfl

theorem degreeFold_mem (P : Puzzle) (S : Variable → Prop) :
    ∀ (l : List Variable) (b : Option Variable),
      (∀ u, b = some u → S u) → (∀ u ∈ l, S u) →
      ∀ u, l.foldl (degreeStep P) b = some u → S u := by
  intro l
  induction l with
  | nil => intro b hb _ u hu; exact hb u hu
  | cons x t ih =>
    intro b hb hl u hu
    rw [List.foldl_cons] at hu
    refine ih (degreeStep P b x) ?_ (fun z hz => hl z (List.mem_cons_of_mem x hz)) u hu
    intro z hz
    unfold degreeStep at hz
    split at hz
    · cases hz
      exact hl x (List.mem_cons_self x t)
    · split at hz
      · cases hz
        exact hl x (List.mem_cons_self x t)
      · exact hb z hz

theorem degreeFold_isSome (P : Puzzle) :
    ∀ (l : List Variable) (b : Option Variable), b.isSome ∨ l ≠ [] →
      (l.foldl (degreeStep P) b).isSome := by
  intro l
  induction l with
  | nil =>
    intro b hb
    rcases hb with hb | hb
    · exact hb
    · exact absurd rfl hb
  | cons x t ih =>
    intro b _
    rw [List.foldl_cons]
    exact ih _ (Or.inl (degreeStep_isSome P b x))

theorem select_mem (P : Puzzle) (a : Assignment) (D : Store) (v : Variable)
    (h : select_unassigned_variable P a D = some v) :
    v ∈ P.vars ∧ hasKey a v = false := by
  simp only [select_unassigned_variable] at h
  by_cases hc : assignment_complete P a = true
  · rw [if_pos hc] at h
    cases h
  · rw [if_neg hc] at h
    have hsd : v ∈ (mrvPass D (P.vars.filter (fun v => !(hasKey a v)))).2 := by
      by_cases hl :
          (((mrvPass D (P.vars.filter (fun v => !(hasKey a v)))).2.length == 1) = true)
      · rw [if_pos hl] at h
        rcases hsde : (mrvPass D (P.vars.filter (fun v => !(hasKey a v)))).2 with _ | ⟨hd, tl⟩
        · rw [hsde] at h
          cases h
        · rw [hsde] at h
          have hv2 : hd = v := Option.some.inj h
          rw [← hv2]
          exact List.mem_cons_self hd tl
      · rw [if_neg hl] at h
        exact degreeFold_mem P
          (fun u => u ∈ (mrvPass D (P.vars.filter (fun v => !(hasKey a v)))).2)
          _ none (fun u hu => by cases hu) (fun u hu => hu) v h
    have hun : v ∈ P.vars.filter (fun v => !(hasKey a v)) := by
      rcases mrvFold_sub D _ (none, []) v hsd with h2 | h2
      · cases h2
      · exact h2
    have := List.mem_filter.mp hun
    refine ⟨this.1, ?_⟩
    have hb := this.2
    simp only [Bool.not_eq_true'] at hb
    exact hb

theorem select_isSome (P : Puzzle) (a : Assignment) (D : Store)
    (h1 : assignment_complete P a = false)
    (h2 : P.vars.filter (fun v => !(hasKey a v)) ≠ []) :
    ∃ v, select_unassigned_variable P a D = some v := by
  simp only [select_unassigned_variable]
  rw [if_neg (by simp [h1])]
  have hsd : (mrvPass D (P.vars.filter (fun v => !(hasKey a v)))).2 ≠ [] := by
    rcases hu : P.vars.filter (fun v => !(hasKey a v)) with _ | ⟨x, t⟩
    · exact absurd hu h2
    · unfold mrvPass
      rw [List.foldl_cons]
      refine mrvFold_ne D t _ ?_
      rw [show (mrvStep D (none, []) x).2 = [x] from rfl]
      simp
  by_cases hl : (((mrvPass D (P.vars.filter (fun v => !(hasKey a v)))).2.length == 1) = true)
  · rw [if_pos hl]
    rcases hsde : (mrvPass D (P.vars.filter (fun v => !(hasKey a v)))).2 with _ | ⟨hd, tl⟩
    · exact absurd hsde hsd
    · exact ⟨hd, rfl⟩
  · rw [if_neg hl]
    have := degreeFold_isSome P
      ((mrvPass D (P.vars.filter (fun v => !(hasKey a v)))).2) none (Or.inr hsd)
    exact Option.isSome_iff_exists.mp this

theorem ODV_nil (P : Puzzle) (var : Variable) (a : Assignment) (D : Store)
    (h : D var = []) : order_domain_values P var a D = [] := by
  simp only [order_domain_values]
  rw [h]
  simp

/-- C9 (amended): on a puzzle with at least one slot, a vocabulary in which
no word's length equals any slot's length makes `enforce_node_consistency`
empty every slot's domain, after which `solve` terminates and returns
`none`: `ac3` drains its queue without revisions, backtracking selects a
variable whose candidate list is empty, and the loop falls through.  (On a
slotless puzzle `solve` instead returns the empty assignment; see the
counterexample.) -/
theorem C9_no_fit (P : Puzzle) (words : List Word) (hvars : P.vars ≠ [])
    (hlen : ∀ w ∈ words, ∀ v ∈ P.vars, w.length ≠ v.len) :
    (∀ v ∈ P.vars, enforce_node_consistency P (initialDomains words) v = []) ∧
    solve P words = none := by
  have henc : ∀ v ∈ P.vars, enforce_node_consistency P (initialDomains words) v = [] := by
    intro v hv
    rw [enc_apply, if_pos hv]
    refine List.filter_eq_nil_iff.mpr ?_
    intro w hw
    simp [hlen w hw v hv]
  refine ⟨henc, ?_⟩
  unfold solve
  have hac : ac3 P none (enforce_node_consistency P (initialDomains words))
      = (true, enforce_node_consistency P (initialDomains words)) := by
    unfold ac3
    exact ac3go_all_empty P _ henc (initialQueue P none)
      (fun p hp => seedArcs_first P p hp)
  rw [hac]
  have hnc : assignment_complete P ([] : Assignment) = false := by
    unfold assignment_complete
    rcases hv : P.vars with _ | ⟨a, t⟩
    · exact absurd hv hvars
    · rfl
  have hfeq : P.vars.filter (fun v => !(hasKey [] v)) = P.vars :=
    List.filter_eq_self.mpr (fun a _ => rfl)
  have hfilter : P.vars.filter (fun v => !(hasKey [] v)) ≠ [] := by
    rw [hfeq]
    exact hvars
  obtain ⟨var, hvar⟩ :=
    select_isSome P [] (enforce_node_consistency P (initialDomains words)) hnc hfilter
  have hODV : order_domain_values P var []
      (enforce_node_consistency P (initialDomains words)) = [] :=
    ODV_nil P var [] _
      (henc var (select_mem P [] _ var hvar).1)
  have hstep : backtrack P (P.vars.length + 1) []
        (enforce_node_consistency P (initialDomains words))
      = if assignment_complete P [] then
          (some [], [], enforce_node_consistency P (initialDomains words))
        else
          match select_unassigned_variable P []
              (enforce_node_consistency P (initialDomains words)) with
          | none => (none, [], enforce_node_consistency P (initialDomains words))
          | some var =>
            btLoop P var (fun a2 D2 => backtrack P P.vars.length a2 D2)
              (order_domain_values P var []
                (enforce_node_consistency P (initialDomains words)))
              [] (enforce_node_consistency P (initialDomains words)) := rfl
  rw [hstep, if_neg (by simp [hnc]), hvar]
  show (btLoop P var (fun a2 D2 => backtrack P P.vars.length a2 D2)
      (order_domain_values P var [] (enforce_node_consistency P (initialDomains words)))
      [] (enforce_node_consistency P (initialDomains words))).1 = none
  rw [hODV]
  rfl

/-- C9 counterexample: on the slotless puzzle, with a vocabulary (vacuously)
containing no word of any slot's length, `solve` returns the empty
assignment rather than `none`. -/
theorem C9_counterexample : solve P0 [wAB] = some [] := by
  unfold solve
  have hac : ac3 P0 none (enforce_node_consistency P0 (initialDomains [wAB]))
      = (true, enforce_node_consistency P0 (initialDomains [wAB])) := by
    unfold ac3
    exact ac3go_all_empty P0 _ (fun v hv => absurd hv (List.not_mem_nil v)) _
      (fun p hp => seedArcs_first P0 p hp)
  rw [hac]
  rfl

theorem C9_witness : solve P1 [wAB] = none :=
  (C9_no_fit P1 [wAB] (by decide) (by decide)).2

/-! Soundness of backtracking: any returned assignment passed `consistent`
while complete. -/

/-- Certificate carried by any successful `backtrack` result that was not
already complete on entry: the returned assignment is complete, well formed,
and passed `consistent` on some store. -/
def GoodResult (P : Puzzle) (r : Assignment) : Prop :=
  assignment_complete P r = true ∧ AWF P r ∧ ∃ D₀, (consistent P r D₀).1 = true

theorem btLoop_sound (P : Puzzle) (var : Variable) (hvar : var ∈ P.vars)
    (rec : Assignment → Store → Option Assignment × Assignment × Store)
    (hrec : ∀ a D, AWF P a →
      AWF P ((rec a D).2.1) ∧
      (∀ r, (rec a D).1 = some r →
        GoodResult P r ∨ (r = a ∧ assignment_complete P a = true))) :
    ∀ (ws : List Word) (a : Assignment) (D : Store), AWF P a →
      AWF P ((btLoop P var rec ws a D).2.1) ∧
      (∀ r, (btLoop P var rec ws a D).1 = some r → GoodResult P r) := by
  intro ws
  induction ws with
  | nil =>
    intro a D ha
    refine ⟨ha, fun r hr => ?_⟩
    rw [show (btLoop P var rec [] a D).1 = none from rfl] at hr
    cases hr
  | cons w ws ih =>
    intro a D ha
    have ha1 : AWF P (setA a var w) := setA_AWF P a var w ha hvar
    by_cases hcons : (consistent P (setA a var w) D).1 = true
    · have hstep : btLoop P var rec (w :: ws) a D
          = match rec (setA a var w)
              (ac3 P none
                (enforce_node_consistency P (consistent P (setA a var w) D).2)).2 with
            | (some r, a2, D2) => (some r, a2, D2)
            | (none, a2, D2) => btLoop P var rec ws a2 D2 := by
        rw [btLoop, if_pos hcons]
      rcases hr0 : rec (setA a var w)
          (ac3 P none
            (enforce_node_consistency P (consistent P (setA a var w) D).2)).2
        with ⟨res, a2, D2⟩
      have hrecD := hrec (setA a var w)
        ((ac3 P none
          (enforce_node_consistency P (consistent P (setA a var w) D).2)).2) ha1
      have hrAWF : AWF P a2 := by
        have h2 := hrecD.1
        rw [hr0] at h2
        exact h2
      rcases res with _ | r0
      · rw [hstep, hr0]
        exact ih a2 D2 hrAWF
      · rw [hstep, hr0]
        refine ⟨hrAWF, fun r hr => ?_⟩
        have hrr : r0 = r := Option.some.inj hr
        have hres := hrecD.2 r0 (by rw [hr0])
        rcases hres with hgood | ⟨heq, hcomp⟩
        · exact hrr ▸ hgood
        · refine hrr ▸ ⟨heq ▸ hcomp, heq ▸ ha1, ⟨D, ?_⟩⟩
          rw [heq]
          exact hcons
    · have hstep : btLoop P var rec (w :: ws) a D
          = btLoop P var rec ws (setA a var w) (consistent P (setA a var w) D).2 := by
        rw [btLoop, if_neg hcons]
      rw [hstep]
      exact ih _ _ ha1

theorem backtrack_sound (P : Puzzle) :
    ∀ (fuel : Nat) (a : Assignment) (D : Store), AWF P a →
      AWF P ((backtrack P fuel a D).2.1) ∧
      (∀ r, (backtrack P fuel a D).1 = some r →
        GoodResult P r ∨ (r = a ∧ assignment_complete P a = true)) := by
  intro fuel
  induction fuel with
  | zero =>
    intro a D ha
    refine ⟨ha, fun r hr => ?_⟩
    rw [show (backtrack P 0 a D).1 = none from rfl] at hr
    cases hr
  | succ fuel ih =>
    intro a D ha
    by_cases hcomp : assignment_complete P a = true
    · have hstep : backtrack P (fuel + 1) a D = (some a, a, D) := by
        rw [backtrack, if_pos hcomp]
      rw [hstep]
      exact ⟨ha, fun r hr => Or.inr ⟨(Option.some.inj hr).symm, hcomp⟩⟩
    · rcases hsel : select_unassigned_variable P a D with _ | var
      · have hstep : backtrack P (fuel + 1) a D = (none, a, D) := by
          rw [backtrack, if_neg hcomp, hsel]
        rw [hstep]
        refine ⟨ha, fun r hr => ?_⟩
        cases hr
      · have hvm := (select_mem P a D var hsel).1
        have hstep : backtrack P (fuel + 1) a D
            = btLoop P var (fun a2 D2 => backtrack P fuel a2 D2)
                (order_domain_values P var a D) a D := by
          rw [backtrack, if_neg hcomp, hsel]
        rw [hstep]
        have hbt := btLoop_sound P var hvm (fun a2 D2 => backtrack P fuel a2 D2)
          (fun a2 D2 ha2 => ih a2 D2 ha2) (order_domain_values P var a D) a D ha
        exact ⟨hbt.1, fun r hr => Or.inl (hbt.2 r hr)⟩

/-- Unpacking a `GoodResult`: coverage, distinct words, length fit, and
agreement at every recorded overlap. -/
theorem goodResult_props (P : Puzzle) (r : Assignment) (h : GoodResult P r) :
    (∀ v ∈ P.vars, ∃ w, lookupA r v = some w) ∧
    (r.map (fun p => p.2)).Nodup ∧
    (∀ x y i j wx wy, P.overlaps x y = some (i, j) →
      lookupA r x = some wx → lookupA r y = some wy → charAt wx i = charAt wy j) ∧
    (∀ p ∈ r, p.2.length = p.1.len) := by
  obtain ⟨hcomp, hawf, D₀, hct⟩ := h
  obtain ⟨hdup, hempty, hac3⟩ := consistent_fst_true P r D₀ hct
  have hsing : ∀ v ∈ P.vars, ∀ w, (v, w) ∈ r →
      enforce_node_consistency P (forceAssigned r D₀) v = [w] ∧ w.length = v.len := by
    intro v hv w hw
    have hf : forceAssigned r D₀ v = [w] := force_mem r D₀ v w hawf.1 hw
    have hT : enforce_node_consistency P (forceAssigned r D₀) v
        = [w].filter (fun u => u.length == v.len) := by
      rw [enc_apply, if_pos hv, hf]
    have hne : enforce_node_consistency P (forceAssigned r D₀) v ≠ [] :=
      has_empty_false P _ hempty v hv
    by_cases hl : (w.length == v.len) = true
    · refine ⟨?_, beq_iff_eq.mp hl⟩
      rw [hT, List.filter_cons, if_pos hl]
      rfl
    · exfalso
      refine hne ?_
      rw [hT, List.filter_cons, if_neg hl]
      rfl
  refine ⟨?_, hasDup_false_nodup r hdup, ?_, ?_⟩
  · intro v hv
    obtain ⟨w, hw⟩ := complete_covers P r hawf hcomp v hv
    exact ⟨w, lookupA_some_of_mem r hawf.1 v w hw⟩
  · intro x y i j wx wy ho hx hy
    have hmx : (x, wx) ∈ r := lookupA_mem r x wx hx
    have hmy : (y, wy) ∈ r := lookupA_mem r y wy hy
    have hxv : x ∈ P.vars := hawf.2 (x, wx) hmx
    have hyv : y ∈ P.vars := hawf.2 (y, wy) hmy
    have hTx := (hsing x hxv wx hmx).1
    have hTy := (hsing y hyv wy hmy).1
    have hseed : (x, y) ∈ seedArcs P :=
      seedArcs_mem P x y hxv hyv (by rw [P.overlaps_symm x y i j ho]; rfl)
    refine ac3go_singleton P (enforce_node_consistency P (forceAssigned r D₀))
      (fun v hv => ?_) (seedArcs P)
      (fun p hp => ⟨seedArcs_first P p hp, seedArcs_second P p hp⟩)
      hac3 x y hseed i j ho wx wy hTx hTy
    obtain ⟨w, hw⟩ := complete_covers P r hawf hcomp v hv
    exact ⟨w, (hsing v hv w hw).1⟩
  · intro p hp
    have hpv : p.1 ∈ P.vars := hawf.2 p hp
    have hpm : (p.1, p.2) ∈ r := hp
    exact (hsing p.1 hpv p.2 hpm).2

/-- C1: every assignment returned by `solve` (that is, by `backtrack` from
the empty assignment after initial propagation) is complete — it has an
entry for every slot — assigns pairwise-distinct words (no word is reused
across slots), agrees at every recorded overlap, and gives every slot a
word of its exact length. -/
theorem C1_solve_sound (P : Puzzle) (words : List Word) (r : Assignment)
    (h : solve P words = some r) :
    assignment_complete P r = true ∧
    (∀ v ∈ P.vars, ∃ w, lookupA r v = some w) ∧
    (r.map (fun p => p.2)).Nodup ∧
    (∀ x y i j wx wy, P.overlaps x y = some (i, j) →
      lookupA r x = some wx → lookupA r y = some wy → charAt wx i = charAt wy j) ∧
    (∀ p ∈ r, p.2.length = p.1.len) := by
  unfold solve at h
  have hawf : AWF P ([] : Assignment) :=
    ⟨List.nodup_nil, fun p hp => absurd hp (List.not_mem_nil p)⟩
  have hs := (backtrack_sound P (P.vars.length + 1) []
    (ac3 P none (enforce_node_consistency P (initialDomains words))).2 hawf).2 r h
  rcases hs with hgood | ⟨hre, hcomp⟩
  · obtain ⟨hp1, hp2, hp3, hp4⟩ := goodResult_props P r hgood
    exact ⟨hgood.1, hp1, hp2, hp3, hp4⟩
  · subst hre
    have hvars : P.vars = [] := by
      unfold assignment_complete at hcomp
      have : (0 : Nat) = P.vars.length := by simpa using hcomp
      exact List.length_eq_zero.mp this.symm
    refine ⟨hcomp, ?_, List.nodup_nil, ?_, ?_⟩
    · intro v hv
      rw [hvars] at hv
      cases hv
    · intro x y i j wx wy _ hx _
      rw [show lookupA [] x = none from rfl] at hx
      cases hx
    · intro p hp
      cases hp

/-! Concrete code-bug evidence for C2 and C3. -/

/-- Store with `["ab"]` (a word too short for the length-3 slot) in every
domain. -/
def D3 : Store := fun _ => [wAB]

/-- Store with `[cat, dog]` in every domain (for the C2 instance). -/
def DC : Store := fun _ => [wCAT, wDOG]

/-- C3: `backtrack({})` on the single-slot puzzle with vocabulary `["ab"]`
exhausts its only candidate (it fails node consistency inside `consistent`)
and returns failure — but because `new_assignment = assignment` aliases the
caller's dict, the caller's assignment is left containing `{vA: "ab"}`
instead of being empty. -/
theorem C3_residue :
    (backtrack P1 2 [] D3).1 = none ∧ (backtrack P1 2 [] D3).2.1 = [(vA, wAB)] := by
  have hsel : select_unassigned_variable P1 [] D3 = some vA := by decide
  have hodv : order_domain_values P1 vA [] D3 = [wAB] := by
    show (([(wAB, 0)] : List (Word × Nat)).mergeSort
        (fun p q => decide (p.2 ≤ q.2))).map (fun p => p.1) = [wAB]
    rw [List.mergeSort_singleton]
    rfl
  have hstep : backtrack P1 2 [] D3
      = if assignment_complete P1 [] then (some [], [], D3)
        else match select_unassigned_variable P1 [] D3 with
          | none => (none, [], D3)
          | some var =>
            btLoop P1 var (fun a2 D2 => backtrack P1 1 a2 D2)
              (order_domain_values P1 var [] D3) [] D3 := rfl
  rw [hstep, if_neg (by decide), hsel]
  show (btLoop P1 vA (fun a2 D2 => backtrack P1 1 a2 D2)
        (order_domain_values P1 vA [] D3) [] D3).1 = none
    ∧ (btLoop P1 vA (fun a2 D2 => backtrack P1 1 a2 D2)
        (order_domain_values P1 vA [] D3) [] D3).2.1 = [(vA, wAB)]
  rw [hodv]
  exact ⟨by decide, by decide⟩

/-- C2: on the crossing puzzle with both domains `[cat, dog]` and the
assignment `{vA: cat}`, `consistent` returns true — and afterwards the
domain of the *unassigned* slot `vD` has permanently lost `dog`: the
shallow `dict.copy()` snapshot shares the word sets, so the in-place
pruning done by the `ac3` call inside `consistent` survives the restore. -/
theorem C2_consistent_residue :
    (consistent P2 [(vA, wCAT)] DC).1 = true ∧
    (consistent P2 [(vA, wCAT)] DC).2 vD = [wCAT] ∧
    DC vD = [wCAT, wDOG] ∧
    (consistent P2 [(vA, wCAT)] DC).2 vD ≠ DC vD := by
  have h1 : (revise P2 vA vD
      (enforce_node_consistency P2 (forceAssigned [(vA, wCAT)] DC))).1 = false := by
    decide
  have h1b := revise_not_revised P2 vA vD
    (enforce_node_consistency P2 (forceAssigned [(vA, wCAT)] DC)) h1
  have h2 : (revise P2 vD vA
      (enforce_node_consistency P2 (forceAssigned [(vA, wCAT)] DC))).1 = true := by
    decide
  have h2e : (((revise P2 vD vA
      (enforce_node_consistency P2 (forceAssigned [(vA, wCAT)] DC))).2 vD).length == 0)
      = false := by
    decide
  have h3 : (revise P2 vA vD
      ((revise P2 vD vA
        (enforce_node_consistency P2 (forceAssigned [(vA, wCAT)] DC))).2)).1 = false := by
    decide
  have h3b := revise_not_revised P2 vA vD
    ((revise P2 vD vA
      (enforce_node_consistency P2 (forceAssigned [(vA, wCAT)] DC))).2) h3
  have hacfull : ac3 P2 none (enforce_node_consistency P2 (forceAssigned [(vA, wCAT)] DC))
      = (true, (revise P2 vD vA
          (enforce_node_consistency P2 (forceAssigned [(vA, wCAT)] DC))).2) := by
    unfold ac3
    rw [show initialQueue P2 none = [(vA, vD), (vD, vA)] by decide]
    rw [ac3go_cons, if_neg (by simp [h1]), h1b]
    rw [ac3go_cons, if_pos h2, if_neg (by simp [h2e])]
    rw [show ([] ++ requeue P2 vD : List (Variable × Variable)) = [(vA, vD)] by decide]
    rw [ac3go_cons, if_neg (by simp [h3]), h3b]
    rw [ac3go_nil]
  have hcons : consistent P2 [(vA, wCAT)] DC
      = ((ac3 P2 none (enforce_node_consistency P2 (forceAssigned [(vA, wCAT)] DC))).1,
         restoreShallow [(vA, wCAT)] DC
           (ac3 P2 none (enforce_node_consistency P2 (forceAssigned [(vA, wCAT)] DC))).2) := by
    simp only [consistent]
    rw [if_neg (by decide), if_neg (by decide)]
  rw [hcons, hacfull]
  exact ⟨rfl, by decide, rfl, by decide⟩

/-! C8: characterization of `order_domain_values`. -/

theorem countAux (P : Puzzle) (var : Variable) (D : Store) (w : Word) :
    ∀ (l : List Variable) (init : Nat),
      l.foldl
        (fun acc nb =>
          match P.overlaps var nb with
          | some (o1, o2) =>
            acc + ((D nb).filter (fun nw => !(charAt w o1 == charAt nw o2))).length
          | none => acc) init
      = init + (l.map
          (fun nb =>
            match P.overlaps var nb with
            | some (o1, o2) =>
              ((D nb).filter (fun nw => !(charAt w o1 == charAt nw o2))).length
            | none => 0)).sum := by
  intro l
  induction l with
  | nil => intro init; simp
  | cons nb t ih =>
    intro init
    rw [List.foldl_cons, List.map_cons, List.sum_cons, ih]
    rcases ho : P.overlaps var nb with _ | ⟨o1, o2⟩
    · simp only [ho]
      omega
    · simp only [ho]
      exact Nat.add_assoc init
        (((D nb).filter (fun nw => !(charAt w o1 == charAt nw o2))).length)
        ((t.map (fun nb =>
          match P.overlaps var nb with
          | some (o1, o2) =>
            ((D nb).filter (fun nw => !(charAt w o1 == charAt nw o2))).length
          | none => 0)).sum)

theorem ODV_eq_mergeSort (P : Puzzle) (var : Variable) (a : Assignment) (D : Store) :
    order_domain_values P var a D
      = (((D var).map (fun w => (w, eliminatedCount P var a D w))).mergeSort
          (fun p q => decide (p.2 ≤ q.2))).map (fun p => p.1) := by
  simp only [order_domain_values]
  have hpairs : (D var).map (fun w =>
      (w, ((neighbors P var).filter (fun nb => !(hasKey a nb))).foldl
        (fun acc nb =>
          match P.overlaps var nb with
          | some (o1, o2) =>
            acc + ((D nb).filter (fun nw => !(charAt w o1 == charAt nw o2))).length
          | none => acc) 0))
      = (D var).map (fun w => (w, eliminatedCount P var a D w)) := by
    refine List.map_congr_left (fun w _ => ?_)
    rw [countAux P var D w _ 0, Nat.zero_add]
    rfl
  rw [hpairs]

/-- C8: `order_domain_values` returns exactly the words of `domain(var)` — a
permutation of it — ordered ascending by the number of values each word
would eliminate across the unassigned neighbors, and stably so: for every
count `k`, the words with elimination count `k` appear exactly in their
original domain order. -/
theorem C8_order_domain_values (P : Puzzle) (var : Variable) (a : Assignment)
    (D : Store) :
    (order_domain_values P var a D).Perm (D var) ∧
    (order_domain_values P var a D).Pairwise
      (fun u v => eliminatedCount P var a D u ≤ eliminatedCount P var a D v) ∧
    (∀ k : Nat,
      (order_domain_values P var a D).filter
          (fun w => eliminatedCount P var a D w == k)
        = (D var).filter (fun w => eliminatedCount P var a D w == k)) := by
  have htrans : ∀ (p q r : Word × Nat),
      (fun p q : Word × Nat => decide (p.2 ≤ q.2)) p q →
      (fun p q : Word × Nat => decide (p.2 ≤ q.2)) q r →
      (fun p q : Word × Nat => decide (p.2 ≤ q.2)) p r := by
    intro p q r hpq hqr
    simp only [decide_eq_true_eq] at hpq hqr ⊢
    omega
  have htotal : ∀ (p q : Word × Nat),
      ((fun p q : Word × Nat => decide (p.2 ≤ q.2)) p q
        || (fun p q : Word × Nat => decide (p.2 ≤ q.2)) q p) = true := by
    intro p q
    simp only [Bool.or_eq_true, decide_eq_true_eq]
    omega
  have hmempairs : ∀ p ∈ (D var).map (fun w => (w, eliminatedCount P var a D w)),
      p.2 = eliminatedCount P var a D p.1 := by
    intro p hp
    obtain ⟨w, _, rfl⟩ := List.mem_map.mp hp
    rfl
  have hfst : ((D var).map (fun w => (w, eliminatedCount P var a D w))).map
      (fun p => p.1) = D var := by
    rw [List.map_map]
    have hco : ((fun p : Word × Nat => p.1) ∘ (fun w => (w, eliminatedCount P var a D w)))
        = fun w => w := by
      funext w
      rfl
    rw [hco]
    exact List.map_id _
  rw [ODV_eq_mergeSort]
  refine ⟨?_, ?_, ?_⟩
  · have h1 := (List.mergeSort_perm
      ((D var).map (fun w => (w, eliminatedCount P var a D w)))
      (fun p q => decide (p.2 ≤ q.2))).map (fun p => p.1)
    rw [hfst] at h1
    exact h1
  · rw [List.pairwise_map]
    refine List.Pairwise.imp_of_mem ?_
      (List.sorted_mergeSort htrans htotal
        ((D var).map (fun w => (w, eliminatedCount P var a D w))))
    intro p q hp hq hle
    have hp2 := hmempairs p (List.mem_mergeSort.mp hp)
    have hq2 := hmempairs q (List.mem_mergeSort.mp hq)
    simp only [decide_eq_true_eq] at hle
    rw [hp2, hq2] at hle
    exact hle
  · intro k
    have hstab : ((D var).map (fun w => (w, eliminatedCount P var a D w))).filter
          (fun p => p.2 == k)
        = (((D var).map (fun w => (w, eliminatedCount P var a D w))).mergeSort
            (fun p q => decide (p.2 ≤ q.2))).filter (fun p => p.2 == k) := by
      have hpw : (((D var).map (fun w => (w, eliminatedCount P var a D w))).filter
          (fun p => p.2 == k)).Pairwise
            (fun p q : Word × Nat => decide (p.2 ≤ q.2) = true) := by
        refine List.pairwise_of_forall_mem_list ?_
        intro p hp q hq
        have hpk := (List.mem_filter.mp hp).2
        have hqk := (List.mem_filter.mp hq).2
        simp only [beq_iff_eq] at hpk hqk
        simp only [decide_eq_true_eq]
        omega
      have hsub := List.sublist_mergeSort htrans htotal hpw
        (List.filter_sublist _)
      have hlen : ((((D var).map (fun w => (w, eliminatedCount P var a D w))).mergeSort
            (fun p q => decide (p.2 ≤ q.2))).filter (fun p => p.2 == k)).length
          = (((D var).map (fun w => (w, eliminatedCount P var a D w))).filter
            (fun p => p.2 == k)).length :=
        ((List.mergeSort_perm _ _).filter _).length_eq
      have hsub2 := hsub.filter (fun p : Word × Nat => p.2 == k)
      rw [List.filter_filter] at hsub2
      have hflt : (((D var).map (fun w => (w, eliminatedCount P var a D w))).filter
          (fun p => (p.2 == k) && (p.2 == k)))
          = ((D var).map (fun w => (w, eliminatedCount P var a D w))).filter
            (fun p => p.2 == k) :=
        List.filter_congr (fun p _ => Bool.and_self _)
      rw [hflt] at hsub2
      exact hsub2.eq_of_length hlen.symm
    have hcongr1 : ∀ (l : List (Word × Nat)),
        (∀ p ∈ l, p.2 = eliminatedCount P var a D p.1) →
        l.filter ((fun w => eliminatedCount P var a D w == k) ∘ (fun p : Word × Nat => p.1))
          = l.filter (fun p => p.2 == k) := by
      intro l hl
      refine List.filter_congr (fun p hp => ?_)
      simp only [Function.comp_apply]
      rw [hl p hp]
    rw [List.filter_map]
    rw [hcongr1 _ (fun p hp => hmempairs p (List.mem_mergeSort.mp hp))]
    rw [← hstab]
    rw [← hcongr1 _ hmempairs]
    rw [← List.filter_map]
    rw [hfst]

/-! C1 witness instance: the single-slot puzzle with vocabulary `[cat]` is
solved, and the solution satisfies the soundness properties. -/

theorem btLoop_cons (P : Puzzle) (var : Variable)
    (rec : Assignment → Store → Option Assignment × Assignment × Store)
    (w : Word) (ws : List Word) (a : Assignment) (D : Store) :
    btLoop P var rec (w :: ws) a D
      = if (consistent P (setA a var w) D).1 then
          match rec (setA a var w)
              (ac3 P none
                (enforce_node_consistency P (consistent P (setA a var w) D).2)).2 with
          | (some r, a2, D2) => (some r, a2, D2)
          | (none, a2, D2) => btLoop P var rec ws a2 D2
        else btLoop P var rec ws (setA a var w) (consistent P (setA a var w) D).2 := rfl

theorem C1_solve_instance : solve P1 [wCAT] = some [(vA, wCAT)] := by
  unfold solve
  have hac1 : ac3 P1 none (enforce_node_consistency P1 (initialDomains [wCAT]))
      = (true, enforce_node_consistency P1 (initialDomains [wCAT])) := by
    unfold ac3
    rw [show initialQueue P1 none = [] from rfl, ac3go_nil]
  rw [hac1]
  have hsel : select_unassigned_variable P1 []
      (enforce_node_consistency P1 (initialDomains [wCAT])) = some vA := by decide
  have hodv : order_domain_values P1 vA []
      (enforce_node_consistency P1 (initialDomains [wCAT])) = [wCAT] := by
    show (([(wCAT, 0)] : List (Word × Nat)).mergeSort
        (fun p q => decide (p.2 ≤ q.2))).map (fun p => p.1) = [wCAT]
    rw [List.mergeSort_singleton]
    rfl
  have hstep : backtrack P1 (P1.vars.length + 1) []
        ((true, enforce_node_consistency P1 (initialDomains [wCAT])) : Bool × Store).2
      = if assignment_complete P1 [] then
          (some [], [], enforce_node_consistency P1 (initialDomains [wCAT]))
        else
          match select_unassigned_variable P1 []
              (enforce_node_consistency P1 (initialDomains [wCAT])) with
          | none => (none, [], enforce_node_consistency P1 (initialDomains [wCAT]))
          | some var =>
            btLoop P1 var (fun a2 D2 => backtrack P1 P1.vars.length a2 D2)
              (order_domain_values P1 var []
                (enforce_node_consistency P1 (initialDomains [wCAT])))
              [] (enforce_node_consistency P1 (initialDomains [wCAT])) := rfl
  rw [hstep, if_neg (by decide), hsel]
  show (btLoop P1 vA (fun a2 D2 => backtrack P1 P1.vars.length a2 D2)
      (order_domain_values P1 vA []
        (enforce_node_consistency P1 (initialDomains [wCAT])))
      [] (enforce_node_consistency P1 (initialDomains [wCAT]))).1 = some [(vA, wCAT)]
  rw [hodv]
  have hac2 : ac3 P1 none (enforce_node_consistency P1
        (forceAssigned (setA [] vA wCAT)
          (enforce_node_consistency P1 (initialDomains [wCAT]))))
      = (true, enforce_node_consistency P1
          (forceAssigned (setA [] vA wCAT)
            (enforce_node_consistency P1 (initialDomains [wCAT])))) := by
    unfold ac3
    rw [show initialQueue P1 none = [] from rfl, ac3go_nil]
  have hc1 : consistent P1 (setA [] vA wCAT)
        (enforce_node_consistency P1 (initialDomains [wCAT]))
      = ((ac3 P1 none (enforce_node_consistency P1
            (forceAssigned (setA [] vA wCAT)
              (enforce_node_consistency P1 (initialDomains [wCAT]))))).1,
         restoreShallow (setA [] vA wCAT)
           (enforce_node_consistency P1 (initialDomains [wCAT]))
           (ac3 P1 none (enforce_node_consistency P1
             (forceAssigned (setA [] vA wCAT)
               (enforce_node_consistency P1 (initialDomains [wCAT]))))).2) := by
    simp only [consistent]
    rw [if_neg (by decide), if_neg (by decide)]
  have hconsT : (consistent P1 (setA [] vA wCAT)
      (enforce_node_consistency P1 (initialDomains [wCAT]))).1 = true := by
    rw [hc1, hac2]
  rw [btLoop_cons, if_pos hconsT]
  rfl

theorem C1_witness :
    assignment_complete P1 [(vA, wCAT)] = true ∧
    ([(vA, wCAT)].map (fun p => p.2)).Nodup :=
  ⟨(C1_solve_sound P1 [wCAT] [(vA, wCAT)] C1_solve_instance).1,
   (C1_solve_sound P1 [wCAT] [(vA, wCAT)] C1_solve_instance).2.2.1⟩

theorem C6_witness :
    (revise P2 vA vD D4).2 vA
      = (D4 vA).filter (fun w => (D4 vD).any (fun yw => charAt w 0 == charAt yw 0)) :=
  ((C6_revise_spec P2 vA vD D4).2 0 0 (by decide)).1

theorem C7_witness :
    wAB ∈ enforce_node_consistency P1 D3 vA ↔ (wAB ∈ D3 vA ∧ wAB.length = vA.len) :=
  C7_node_consistency P1 D3 vA (by decide) wAB

theorem C10_witness : (revise P2 vA vD D4).2 vD = D4 vD :=
  (C10_revise_frame P2 vA vD D4).1 vD (by decide)

end CW
